import Mathlib

set_option maxRecDepth 10000

open List (Sublist)
open scoped List

/-!
Verification of the peak-level clustering and alert deduplication engine
(`src/main.py`) against its specification.

The Python code is shallowly embedded over `ℚ`:

* `local_extrema` mirrors `local_extrema` (3-candle neighbourhood rule);
* `median` mirrors `statistics.median` (sort, middle element or mean of
  the two middle elements);
* `cluster_levels` mirrors `cluster_levels` (ascending sort, greedy
  chain-merge anchored at the last element of the current cluster,
  median/count reduction, stable sort by count descending).  Python's
  `sorted`/`list.sort` are stable sorts; they are modelled by
  `List.insertionSort`, which is stable (`List.sublist_insertionSort`),
  and the output of a stable sort under a total preorder is unique;
* `cluster_levelsE` is the same function with the unguarded division
  `abs(x - ref) / ref` modelled exceptionally: a zero reference raises
  `ZeroDivisionError` in Python, which is an `Except.error` here;
* `find_peak_levels` mirrors `find_peak_levels` on an already-fetched
  candle list (the network fetch is an external collaborator);
* `alert_job` mirrors `alert_job` as a state transition on the stored
  signature: the resolution outcome is passed as an `Except` (a raise
  in `find_peak_levels` lands in the `except` branch) and a flag models
  whether `send_message` succeeds; `round(x, 2)` is Python's
  round-half-to-even, modelled exactly on `ℚ` by `roundHalfEven`.
-/

/-- One OHLC candle, as produced by `fetch_klines`
(`{"ts": ..., "open": ..., "high": ..., "low": ..., "close": ...}`). -/
structure Candle where
  ts : Int
  op : ℚ
  high : ℚ
  low : ℚ
  close : ℚ
deriving DecidableEq

/-- Default candle used only to totalise out-of-range list indexing;
`local_extrema` only indexes in range. -/
def cdefault : Candle := ⟨0, 0, 0, 0, 0⟩

/-- `local_extrema` from `src/main.py`: for `i in range(1, len(kl) - 1)`,
`kl[i]` is a local low iff its low is `≤` both neighbours' lows, and a
local high iff its high is `≥` both neighbours' highs. -/
def local_extrema (kl : List Candle) : List ℚ × List ℚ :=
  let idx := List.range' 1 (kl.length - 2)
  (((idx.filter fun i => decide
      ((kl.getD i cdefault).low ≤ (kl.getD (i - 1) cdefault).low ∧
       (kl.getD i cdefault).low ≤ (kl.getD (i + 1) cdefault).low)).map
    fun i => (kl.getD i cdefault).low),
   ((idx.filter fun i => decide
      ((kl.getD i cdefault).high ≥ (kl.getD (i - 1) cdefault).high ∧
       (kl.getD i cdefault).high ≥ (kl.getD (i + 1) cdefault).high)).map
    fun i => (kl.getD i cdefault).high))

/-- `statistics.median`: sort, take the middle element (odd length) or
the mean of the two middle elements (even length). -/
def median (l : List ℚ) : ℚ :=
  let s := List.insertionSort (· ≤ ·) l
  let n := l.length
  if n % 2 = 1 then s.getD (n / 2) 0
  else (s.getD (n / 2 - 1) 0 + s.getD (n / 2) 0) / 2

/-- The ordering used by `res.sort(key=lambda e: e[1], reverse=True)`:
count descending (a stable sort with respect to this total preorder). -/
def countGE (a b : ℚ × ℕ) : Prop := b.2 ≤ a.2

instance : DecidableRel countGE := fun a b => Nat.decLe b.2 a.2

instance : IsTotal (ℚ × ℕ) countGE := ⟨fun a b => Nat.le_total b.2 a.2⟩

instance : IsTrans (ℚ × ℕ) countGE := ⟨fun _ _ _ h h' => Nat.le_trans h' h⟩

/-- The greedy chain-merge loop of `cluster_levels`: `cur` is the current
(last) cluster, `ref = clusters[-1][-1]` is the last value added to it;
`x` joins the current cluster iff `|x - ref| / ref ≤ eps_pct`, otherwise
the current cluster is finished and a new one starts at `x`. -/
def clusterRec (eps_pct : ℚ) (cur : List ℚ) : List ℚ → List (List ℚ)
  | [] => [cur]
  | x :: xs =>
    let ref := cur.getLastD 0
    if |x - ref| / ref ≤ eps_pct then clusterRec eps_pct (cur ++ [x]) xs
    else cur :: clusterRec eps_pct [x] xs

/-- The cluster partition of an already-sorted value list
(`clusters = [[values[0]]]` then the greedy loop). -/
def clustersOfSorted (eps_pct : ℚ) : List ℚ → List (List ℚ)
  | [] => []
  | v :: vs => clusterRec eps_pct [v] vs

/-- `cluster_levels` from `src/main.py`: sort ascending, greedy
chain-merge, reduce each cluster to `(median, count)`, stable-sort by
count descending.  Empty input yields `[]`. -/
def cluster_levels (values : List ℚ) (eps_pct : ℚ) : List (ℚ × ℕ) :=
  List.insertionSort countGE
    ((clustersOfSorted eps_pct (List.insertionSort (· ≤ ·) values)).map
      fun g => (median g, g.length))

/-- The greedy loop with Python's division-by-zero semantics made
explicit: evaluating `abs(x - ref) / ref` with `ref == 0` raises
`ZeroDivisionError`, modelled as `Except.error`. -/
def clusterRecE (eps_pct : ℚ) (cur : List ℚ) :
    List ℚ → Except String (List (List ℚ))
  | [] => .ok [cur]
  | x :: xs =>
    let ref := cur.getLastD 0
    if ref = 0 then .error "ZeroDivisionError: division by zero"
    else if |x - ref| / ref ≤ eps_pct then clusterRecE eps_pct (cur ++ [x]) xs
    else (clusterRecE eps_pct [x] xs).map (cur :: ·)

/-- `cluster_levels` with the division-by-zero exception modelled. -/
def cluster_levelsE (values : List ℚ) (eps_pct : ℚ) :
    Except String (List (ℚ × ℕ)) :=
  match List.insertionSort (· ≤ ·) values with
  | [] => .ok []
  | v :: vs =>
    (clusterRecE eps_pct [v] vs).map fun clusters =>
      List.insertionSort countGE (clusters.map fun g => (median g, g.length))

/-- `find_peak_levels` from `src/main.py`, on an already-fetched candle
list: `best_min`/`best_max` are the head of the respective cluster list
(or the `(None, 0)` sentinel when it is empty), `last_close` is the last
candle's close (or `None`). -/
def find_peak_levels (kl : List Candle) (eps_pct : ℚ) :
    (Option ℚ × ℕ) × (Option ℚ × ℕ) × Option ℚ :=
  let lows := (local_extrema kl).1
  let highs := (local_extrema kl).2
  let low_clusters := cluster_levels lows eps_pct
  let high_clusters := cluster_levels highs eps_pct
  let best_min : Option ℚ × ℕ :=
    match low_clusters with
    | [] => (none, 0)
    | c :: _ => (some c.1, c.2)
  let best_max : Option ℚ × ℕ :=
    match high_clusters with
    | [] => (none, 0)
    | c :: _ => (some c.1, c.2)
  let last_close : Option ℚ :=
    match kl.getLast? with
    | none => none
    | some c => some c.close
  (best_min, best_max, last_close)

/-- Round-half-to-even to an integer, the semantics of Python's
built-in `round`. -/
def roundHalfEven (x : ℚ) : ℤ :=
  let f := ⌊x⌋
  let r := x - f
  if r < 1 / 2 then f
  else if 1 / 2 < r then f + 1
  else if f % 2 = 0 then f else f + 1

/-- Python's `round(x, 2)`. -/
def round2 (x : ℚ) : ℚ := (roundHalfEven (x * 100) : ℚ) / 100

/-- An alert signature: `(round(minPrice, 2), minSupport,
round(maxPrice, 2), maxSupport)`. -/
abbrev Sig := ℚ × ℕ × ℚ × ℕ

/-- The candidate signature built by `alert_job`; `x or 0` maps the
`None` sentinel to `0`. -/
def signatureOf (min_level max_level : Option ℚ × ℕ) : Sig :=
  (round2 (min_level.1.getD 0), min_level.2,
   round2 (max_level.1.getD 0), max_level.2)

/-- Python truthiness of an optional number: `None` and `0` are falsy. -/
def truthy : Option ℚ → Bool
  | none => false
  | some x => decide (x ≠ 0)

/-- The proximity test `price and level and abs(price - level) / level
<= pct` (its truthiness, which is what `if near_min:` consumes). -/
def near_flag (price level : Option ℚ) (pct : ℚ) : Bool :=
  truthy price && truthy level &&
    decide (|price.getD 0 - level.getD 0| / level.getD 0 ≤ pct)

/-- The result of one `find_peak_levels` resolution, as consumed by
`alert_job`. -/
structure Peaks where
  min_level : Option ℚ × ℕ
  max_level : Option ℚ × ℕ
  price : Option ℚ
deriving DecidableEq

/-- A message sent to the alert chat by one tick: either the alert text
(with its proximity flags and levels) or the one-line error diagnostic
from the `except` branch. -/
inductive TickMsg where
  | alert (near_min near_max : Bool) (min_level max_level : Option ℚ × ℕ)
  | diag (e : String)
deriving DecidableEq

/-- `alert_job` from `src/main.py` as a state transition on the stored
signature.  `resolve` is the outcome of `find_peak_levels` (an exception
there lands in the `except` branch, which sends a one-line diagnostic
and leaves the signature unchanged); `sendOk` models whether
`context.bot.send_message` succeeds (a raise there also lands in the
`except` branch, before the signature is assigned).  Returns the new
stored signature and the messages sent. -/
def alert_job (alert_pct : ℚ) (resolve : Except String Peaks)
    (sendOk : Bool) (last : Option Sig) : Option Sig × List TickMsg :=
  match resolve with
  | .error e => (last, [.diag e])
  | .ok p =>
    let sig := signatureOf p.min_level p.max_level
    if last = some sig then (last, [])
    else
      let near_min := near_flag p.price p.min_level.1 alert_pct
      let near_max := near_flag p.price p.max_level.1 alert_pct
      if sendOk then
        (some sig, [.alert near_min near_max p.min_level p.max_level])
      else (last, [.diag "send_message failed"])

/-- Is a tick message the actual alert (as opposed to a diagnostic)? -/
def isAlert : TickMsg → Bool
  | .alert _ _ _ _ => true
  | .diag _ => false

/-- Number of alerts among the messages of a tick. -/
def alertCount (msgs : List TickMsg) : ℕ := (msgs.filter isAlert).length

/-- C8: on an empty candle sequence the resolver returns with both
cluster fields absent and the last close absent, without raising;
clustering an empty value list yields `[]`, not an error; and an empty
extrema list makes the corresponding cluster field the absent sentinel
`(None, 0)` rather than an error. -/
theorem find_peak_levels_empty (eps : ℚ) :
    find_peak_levels [] eps = ((none, 0), (none, 0), none)
    ∧ cluster_levels [] eps = []
    ∧ (∀ kl : List Candle, (local_extrema kl).1 = [] →
        (find_peak_levels kl eps).1 = (none, 0))
    ∧ (∀ kl : List Candle, (local_extrema kl).2 = [] →
        (find_peak_levels kl eps).2.1 = (none, 0)) := by
  refine ⟨rfl, rfl, ?_, ?_⟩
  · intro kl h
    simp only [find_peak_levels, h]
    rfl
  · intro kl h
    simp only [find_peak_levels, h]
    rfl

/-- C8 witness: the resolver at concrete inputs. -/
theorem find_peak_levels_empty_witness :
    (find_peak_levels [cdefault] (1/100)).1 = (none, 0) :=
  (find_peak_levels_empty (1/100)).2.2.1 [cdefault] rfl

/-- C9: a failing tick leaves the stored signature unchanged, emits no
alert, and reports the failure as a single one-line diagnostic to the
alert destination instead of propagating: this holds both when level
resolution raises (`Except.error`) and when alert emission raises
(`sendOk = false`). -/
theorem alert_job_failure (apct : ℚ) (p : Peaks) (last : Option Sig) :
    (∀ (e : String) (b : Bool),
        alert_job apct (.error e) b last = (last, [TickMsg.diag e]))
    ∧ (alert_job apct (.ok p) false last).1 = last
    ∧ alertCount (alert_job apct (.ok p) false last).2 = 0
    ∧ (last ≠ some (signatureOf p.min_level p.max_level) →
        alert_job apct (.ok p) false last
          = (last, [TickMsg.diag "send_message failed"])) := by
  refine ⟨fun e b => rfl, ?_, ?_, ?_⟩
  · by_cases h : last = some (signatureOf p.min_level p.max_level) <;>
      simp [alert_job, h]
  · by_cases h : last = some (signatureOf p.min_level p.max_level) <;>
      simp [alert_job, h, alertCount, isAlert]
  · intro h
    simp [alert_job, h]

/-- C9 witness: a failing tick at a concrete state. -/
theorem alert_job_failure_witness :
    alert_job (1/100) (.ok ⟨(none, 0), (none, 0), none⟩) false none
      = (none, [TickMsg.diag "send_message failed"]) :=
  (alert_job_failure (1/100) ⟨(none, 0), (none, 0), none⟩ none).2.2.2
    (by simp)

/-- A tick whose candidate signature equals the stored one suppresses:
nothing is sent and the state is unchanged. -/
theorem alert_job_suppress (apct : ℚ) (p : Peaks) (s : Option Sig)
    (h : s = some (signatureOf p.min_level p.max_level)) :
    alert_job apct (.ok p) true s = (s, []) := by
  simp [alert_job, h]

/-- A tick whose candidate signature differs from the stored one emits
the alert (with its two proximity flags) and stores the candidate. -/
theorem alert_job_emit (apct : ℚ) (p : Peaks) (s : Option Sig)
    (h : s ≠ some (signatureOf p.min_level p.max_level)) :
    alert_job apct (.ok p) true s
      = (some (signatureOf p.min_level p.max_level),
         [TickMsg.alert (near_flag p.price p.min_level.1 apct)
            (near_flag p.price p.max_level.1 apct)
            p.min_level p.max_level]) := by
  simp [alert_job, h]

theorem sig_100004 :
    signatureOf (some (100004/1000), 3) (some 110, 2) = (100, 3, 110, 2) := by
  norm_num [signatureOf, round2, roundHalfEven, Option.getD_some]

theorem sig_100006 :
    signatureOf (some (100006/1000), 3) (some 110, 2)
      = (10001/100, 3, 110, 2) := by
  norm_num [signatureOf, round2, roundHalfEven, Option.getD_some]

theorem sig_1000049 :
    signatureOf (some (1000049/10000), 3) (some 110, 2)
      = (100, 3, 110, 2) := by
  norm_num [signatureOf, round2, roundHalfEven, Option.getD_some]

theorem sig_10001 :
    signatureOf (some (10001/100), 3) (some 110, 2)
      = (10001/100, 3, 110, 2) := by
  norm_num [signatureOf, round2, roundHalfEven, Option.getD_some]

/-- The stored signature after a first emitting tick whose min level is
(100.004, 3) and max level (110, 2). -/
theorem tick1_state :
    (alert_job (2/1000)
      (.ok ⟨(some (100004/1000), 3), (some 110, 2), some 100⟩) true
      none).1 = some (100, 3, 110, 2) := by
  rw [alert_job_emit _ _ _ (by simp)]
  simp only [sig_100004]

/-- C2 counterexample: a min-price change from 100.004 to 100.006 does
NOT keep the rounded signature — `round(100.006, 2) = 100.01`, not
`100.00` — so the second tick re-emits (one alert), contradicting the
claim that both round to 100.00 and no re-emission occurs. -/
theorem alert_job_100006_reemits :
    round2 (100006/1000) ≠ round2 (100004/1000)
    ∧ alertCount (alert_job (2/1000)
        (.ok ⟨(some (100006/1000), 3), (some 110, 2), some 100⟩) true
        ((alert_job (2/1000)
          (.ok ⟨(some (100004/1000), 3), (some 110, 2), some 100⟩) true
          none).1)).2 = 1 := by
  constructor
  · norm_num [round2, roundHalfEven]
  · rw [tick1_state,
      alert_job_emit _ _ _ (by rw [sig_100006]; simp; norm_num)]
    simp [alertCount, isAlert]

/-- C2 (amended): the candidate signature is the rounded 4-tuple; a tick
whose candidate equals the stored signature suppresses with no state
change; two consecutive ticks with identical rounded signatures emit at
most one alert; a min-price change from 100.004 to 100.0049 (both round
to 100.00) does not re-emit, while changes to 100.006 or 100.01 (which
round to 100.01) do re-emit. -/
theorem alert_job_dedup (apct : ℚ) (p1 p2 : Peaks) (s : Option Sig)
    (hsig : signatureOf p2.min_level p2.max_level
      = signatureOf p1.min_level p1.max_level) :
    (s = some (signatureOf p1.min_level p1.max_level) →
      alert_job apct (.ok p1) true s = (s, []))
    ∧ alertCount (alert_job apct (.ok p1) true s).2 +
        alertCount (alert_job apct (.ok p2) true
          (alert_job apct (.ok p1) true s).1).2 ≤ 1
    ∧ alertCount (alert_job (2/1000)
        (.ok ⟨(some (1000049/10000), 3), (some 110, 2), some 100⟩) true
        ((alert_job (2/1000)
          (.ok ⟨(some (100004/1000), 3), (some 110, 2), some 100⟩) true
          none).1)).2 = 0
    ∧ alertCount (alert_job (2/1000)
        (.ok ⟨(some (100006/1000), 3), (some 110, 2), some 100⟩) true
        ((alert_job (2/1000)
          (.ok ⟨(some (100004/1000), 3), (some 110, 2), some 100⟩) true
          none).1)).2 = 1
    ∧ alertCount (alert_job (2/1000)
        (.ok ⟨(some (10001/100), 3), (some 110, 2), some 100⟩) true
        ((alert_job (2/1000)
          (.ok ⟨(some (100004/1000), 3), (some 110, 2), some 100⟩) true
          none).1)).2 = 1 := by
  refine ⟨fun h => alert_job_suppress apct p1 s h, ?_, ?_, ?_, ?_⟩
  · by_cases h : s = some (signatureOf p1.min_level p1.max_level)
    · rw [alert_job_suppress apct p1 s h,
        alert_job_suppress apct p2 s (by rw [hsig]; exact h)]
      simp [alertCount]
    · rw [alert_job_emit apct p1 s h,
        alert_job_suppress apct p2 _ (by rw [hsig])]
      simp [alertCount, isAlert]
  · rw [tick1_state, alert_job_suppress _ _ _ (by rw [sig_1000049])]
    simp [alertCount]
  · rw [tick1_state,
      alert_job_emit _ _ _ (by rw [sig_100006]; simp; norm_num)]
    simp [alertCount, isAlert]
  · rw [tick1_state,
      alert_job_emit _ _ _ (by rw [sig_10001]; simp; norm_num)]
    simp [alertCount, isAlert]

/-- C2 witness: the deduplication theorem applied to a concrete pair of
ticks carrying the same levels. -/
theorem alert_job_dedup_witness :
    alert_job (2/1000)
      (.ok ⟨(some (100004/1000), 3), (some 110, 2), some 100⟩) true
      (some (signatureOf (some (100004/1000), 3) (some 110, 2)))
      = (some (signatureOf (some (100004/1000), 3) (some 110, 2)), []) :=
  (alert_job_dedup (2/1000)
    ⟨(some (100004/1000), 3), (some 110, 2), some 100⟩
    ⟨(some (100004/1000), 3), (some 110, 2), some 100⟩
    (some (signatureOf (some (100004/1000), 3) (some 110, 2))) rfl).1 rfl

/-- C5: with positive prices and levels, the emitted `nearMin` flag is
true iff both a last-close price and a min level are present and
`|price - level| / level ≤ alertPct`; the flags are computed by the same
independent test on each level and can both be true; at price 100 with
alertPct 0.002, a min level of 99.9 is near while a max level of 110 is
not; and an emitting tick carries exactly these two flags. -/
theorem near_flag_spec (price level : Option ℚ) (pct : ℚ)
    (hp : ∀ x, price = some x → 0 < x) (hl : ∀ x, level = some x → 0 < x) :
    (near_flag price level pct = true ↔
      ∃ p l, price = some p ∧ level = some l ∧ |p - l| / l ≤ pct)
    ∧ near_flag (some 100) (some (999/10)) (2/1000) = true
    ∧ near_flag (some 100) (some 110) (2/1000) = false
    ∧ near_flag (some 100) (some (1001/10)) (2/1000) = true
    ∧ (∀ (apct : ℚ) (p : Peaks) (last : Option Sig),
        last ≠ some (signatureOf p.min_level p.max_level) →
        alert_job apct (.ok p) true last
          = (some (signatureOf p.min_level p.max_level),
             [TickMsg.alert (near_flag p.price p.min_level.1 apct)
                (near_flag p.price p.max_level.1 apct)
                p.min_level p.max_level])) := by
  refine ⟨?_, ?_, ?_, ?_, fun apct p last h => alert_job_emit apct p last h⟩
  · cases price with
    | none => simp [near_flag, truthy]
    | some pv =>
      cases level with
      | none => simp [near_flag, truthy]
      | some lv =>
        have hpv : 0 < pv := hp pv rfl
        have hlv : 0 < lv := hl lv rfl
        simp [near_flag, truthy, ne_of_gt hpv, ne_of_gt hlv]
  · norm_num [near_flag, truthy, abs_of_nonneg]
  · norm_num [near_flag, truthy, abs_of_nonpos]
  · norm_num [near_flag, truthy, abs_of_nonpos]

/-- C5 witness: the characterisation at price 100, level 99.9,
alertPct 0.002. -/
theorem near_flag_spec_witness :
    near_flag (some 100) (some (999/10)) (2/1000) = true :=
  (near_flag_spec (some 100) (some (999/10)) (2/1000)
    (fun x h => by cases h; norm_num)
    (fun x h => by cases h; norm_num)).2.1

/-- C3: sequences shorter than 3 candles yield no extrema; exactly the
interior indices `i ∈ [1, n-2]` are classified, a candle being a local
low iff its low is `≤` both neighbours' lows and a local high iff its
high is `≥` both neighbours' highs (possibly both); and a flat plateau
of four equal candles contributes one extremum per qualifying interior
index (two lows and two highs). -/
theorem local_extrema_spec (kl : List Candle) :
    (kl.length < 3 → local_extrema kl = ([], []))
    ∧ (∀ q : ℚ, q ∈ (local_extrema kl).1 ↔ ∃ i, 1 ≤ i ∧ i + 1 < kl.length ∧
        (kl.getD i cdefault).low ≤ (kl.getD (i - 1) cdefault).low ∧
        (kl.getD i cdefault).low ≤ (kl.getD (i + 1) cdefault).low ∧
        q = (kl.getD i cdefault).low)
    ∧ (∀ q : ℚ, q ∈ (local_extrema kl).2 ↔ ∃ i, 1 ≤ i ∧ i + 1 < kl.length ∧
        (kl.getD i cdefault).high ≥ (kl.getD (i - 1) cdefault).high ∧
        (kl.getD i cdefault).high ≥ (kl.getD (i + 1) cdefault).high ∧
        q = (kl.getD i cdefault).high)
    ∧ local_extrema [⟨0, 1, 7, 5, 2⟩, ⟨1, 1, 7, 5, 2⟩,
        ⟨2, 1, 7, 5, 2⟩, ⟨3, 1, 7, 5, 2⟩] = ([5, 5], [7, 7]) := by
  refine ⟨?_, ?_, ?_, ?_⟩
  · intro h
    have h2 : kl.length - 2 = 0 := by omega
    simp [local_extrema, h2]
  · intro q
    simp only [local_extrema, List.mem_map, List.mem_filter, List.mem_range',
      decide_eq_true_eq]
    constructor
    · rintro ⟨i, ⟨⟨j, hj, hij⟩, h1, h2⟩, rfl⟩
      exact ⟨i, by omega, by omega, h1, h2, rfl⟩
    · rintro ⟨i, hi1, hi2, h1, h2, rfl⟩
      exact ⟨i, ⟨⟨i - 1, by omega, by omega⟩, h1, h2⟩, rfl⟩
  · intro q
    simp only [local_extrema, List.mem_map, List.mem_filter, List.mem_range',
      decide_eq_true_eq]
    constructor
    · rintro ⟨i, ⟨⟨j, hj, hij⟩, h1, h2⟩, rfl⟩
      exact ⟨i, by omega, by omega, h1, h2, rfl⟩
    · rintro ⟨i, hi1, hi2, h1, h2, rfl⟩
      exact ⟨i, ⟨⟨i - 1, by omega, by omega⟩, h1, h2⟩, rfl⟩
  · norm_num [local_extrema, List.range']

/-- C3 witness: the boundary-exclusion part at a two-candle sequence. -/
theorem local_extrema_spec_witness :
    local_extrema [cdefault, cdefault] = ([], []) :=
  (local_extrema_spec [cdefault, cdefault]).1 (by norm_num)

/-- C6: if the greedy loop ever evaluates the relative-distance test
with a zero reference value — which happens whenever a nonnegative
input list contains 0 together with at least one further value — the
operation fails with the division-by-zero error for that single call
(an exceptional outcome the callers surface), rather than continuing
with an undefined quotient. -/
theorem cluster_levelsE_zero_ref (values : List ℚ) (eps : ℚ)
    (hnn : ∀ v ∈ values, 0 ≤ v) (h0 : 0 ∈ values)
    (h2 : 2 ≤ values.length) :
    cluster_levelsE values eps
      = .error "ZeroDivisionError: division by zero" := by
  have hperm := List.perm_insertionSort (· ≤ ·) values
  have hsort := List.sorted_insertionSort (· ≤ ·) values
  cases hs : List.insertionSort (· ≤ ·) values with
  | nil =>
    exfalso
    have hlen := hperm.length_eq
    rw [hs] at hlen
    simp at hlen
    omega
  | cons v vs =>
    cases vs with
    | nil =>
      exfalso
      have hlen := hperm.length_eq
      rw [hs] at hlen
      simp at hlen
      omega
    | cons x xs =>
      rw [hs] at hsort hperm
      have h0s : (0:ℚ) ∈ v :: x :: xs := hperm.mem_iff.mpr h0
      have hv0 : v = 0 := by
        rcases List.mem_cons.mp h0s with h | h
        · exact h.symm
        · exact le_antisymm
            (List.rel_of_sorted_cons hsort 0 h)
            (hnn v (hperm.subset (List.mem_cons_self v _)))
      subst hv0
      simp [cluster_levelsE, hs, clusterRecE, Except.map]

/-- C6 witness: the zero-reference error at the concrete input
`[0, 1]`. -/
theorem cluster_levelsE_zero_ref_witness :
    cluster_levelsE [0, 1] (1/100)
      = .error "ZeroDivisionError: division by zero" :=
  cluster_levelsE_zero_ref [0, 1] (1/100) (by norm_num) (by simp)
    (by simp)

/-- C4: clustering `[10, 10, 10.05, 20, 20.02]` at eps 0.008 yields
exactly the two clusters (median 10, count 3) and (median 20.01,
count 2), ranked count-descending with the count-3 cluster first; on a
candle sequence whose low extrema are exactly these values, the
resolver therefore selects `(10, 3)` as the best-min level. -/
theorem cluster_levels_best_min :
    cluster_levels [10, 10, 1005/100, 20, 2002/100] (8/1000)
      = [(10, 3), (2001/100, 2)]
    ∧ (local_extrema [⟨0, 1, 100, 11, 11⟩, ⟨1, 1, 100, 10, 10⟩,
        ⟨2, 1, 100, 11, 11⟩, ⟨3, 1, 100, 10, 10⟩, ⟨4, 1, 100, 11, 11⟩,
        ⟨5, 1, 100, 1005/100, 10⟩, ⟨6, 1, 100, 30, 30⟩,
        ⟨7, 1, 100, 20, 20⟩, ⟨8, 1, 100, 30, 30⟩,
        ⟨9, 1, 100, 2002/100, 20⟩, ⟨10, 1, 100, 30, 50⟩]).1
      = [10, 10, 1005/100, 20, 2002/100]
    ∧ find_peak_levels [⟨0, 1, 100, 11, 11⟩, ⟨1, 1, 100, 10, 10⟩,
        ⟨2, 1, 100, 11, 11⟩, ⟨3, 1, 100, 10, 10⟩, ⟨4, 1, 100, 11, 11⟩,
        ⟨5, 1, 100, 1005/100, 10⟩, ⟨6, 1, 100, 30, 30⟩,
        ⟨7, 1, 100, 20, 20⟩, ⟨8, 1, 100, 30, 30⟩,
        ⟨9, 1, 100, 2002/100, 20⟩, ⟨10, 1, 100, 30, 50⟩] (8/1000)
      = ((some 10, 3), (some 100, 9), some 50) := by
  refine ⟨?_, ?_, ?_⟩
  · norm_num [cluster_levels, clustersOfSorted, clusterRec, median, countGE,
      List.insertionSort, List.orderedInsert, abs_of_nonneg]
  · norm_num [local_extrema, List.range']
  · norm_num [find_peak_levels, local_extrema, List.range', cluster_levels,
      clustersOfSorted, clusterRec, median, countGE,
      List.insertionSort, List.orderedInsert, abs_of_nonneg]

/-- The clusters produced by the greedy loop concatenate back to the
processed values: they partition the sorted input. -/
theorem clusterRec_flatten (eps : ℚ) (xs : List ℚ) : ∀ cur : List ℚ,
    (clusterRec eps cur xs).flatten = cur ++ xs := by
  induction xs with
  | nil => intro cur; simp [clusterRec]
  | cons x xs ih =>
    intro cur
    simp only [clusterRec]
    split
    · rw [ih (cur ++ [x])]; simp
    · rw [List.flatten_cons, ih [x]]; simp

/-- The greedy loop returns a nonempty cluster list whose first cluster
starts with the first element of the current cluster. -/
theorem clusterRec_head (eps : ℚ) (xs : List ℚ) : ∀ cur : List ℚ,
    cur ≠ [] → ∃ c cs, clusterRec eps cur xs = c :: cs ∧
      c.head? = cur.head? := by
  induction xs with
  | nil => intro cur _; exact ⟨cur, [], rfl, rfl⟩
  | cons x xs ih =>
    intro cur hcur
    simp only [clusterRec]
    split
    · obtain ⟨c, cs, h1, h2⟩ := ih (cur ++ [x]) (by simp)
      refine ⟨c, cs, h1, ?_⟩
      rw [h2]
      cases cur with
      | nil => exact absurd rfl hcur
      | cons a l => simp
    · exact ⟨cur, clusterRec eps [x] xs, rfl, rfl⟩

/-- Every cluster produced by the greedy loop is nonempty. -/
theorem clusterRec_ne_nil (eps : ℚ) (xs : List ℚ) : ∀ cur : List ℚ,
    cur ≠ [] → ∀ c ∈ clusterRec eps cur xs, c ≠ [] := by
  induction xs with
  | nil =>
    intro cur hcur c hc
    simp [clusterRec] at hc
    exact hc ▸ hcur
  | cons x xs ih =>
    intro cur hcur c hc
    simp only [clusterRec] at hc
    split at hc
    · exact ih (cur ++ [x]) (by simp) c hc
    · rcases List.mem_cons.mp hc with rfl | hc
      · exact hcur
      · exact ih [x] (by simp) c hc

/-- Inside each produced cluster, every value was chained to the
previous one by the relative-distance test. -/
theorem clusterRec_chain (eps : ℚ) (xs : List ℚ) : ∀ cur : List ℚ,
    cur ≠ [] → cur.Chain' (fun a b => |b - a| / a ≤ eps) →
    ∀ c ∈ clusterRec eps cur xs,
      c.Chain' (fun a b => |b - a| / a ≤ eps) := by
  induction xs with
  | nil =>
    intro cur hcur hch c hc
    simp [clusterRec] at hc
    exact hc ▸ hch
  | cons x xs ih =>
    intro cur hcur hch c hc
    simp only [clusterRec] at hc
    split at hc
    · rename_i hcond
      refine ih (cur ++ [x]) (by simp) ?_ c hc
      rw [List.chain'_append]
      refine ⟨hch, List.chain'_singleton x, ?_⟩
      intro a ha y hy
      simp only [List.head?_cons, Option.mem_def, Option.some.injEq] at hy
      rw [List.getLastD_eq_getLast?, ha] at hcond
      exact hy ▸ hcond
    · rcases List.mem_cons.mp hc with rfl | hc
      · exact hch
      · exact ih [x] (by simp) (List.chain'_singleton x) c hc

/-- Adjacent produced clusters are separated: the head of the next
cluster failed the relative-distance test against the last value of the
previous cluster. -/
theorem clusterRec_boundary (eps : ℚ) (xs : List ℚ) : ∀ cur : List ℚ,
    cur ≠ [] → (clusterRec eps cur xs).Chain'
      (fun c c' => ¬(|c'.headD 0 - c.getLastD 0| / c.getLastD 0 ≤ eps)) := by
  induction xs with
  | nil => intro cur _; simp [clusterRec]
  | cons x xs ih =>
    intro cur hcur
    simp only [clusterRec]
    split
    · exact ih (cur ++ [x]) (by simp)
    · rename_i hcond
      obtain ⟨c, cs, h1, h2⟩ := clusterRec_head eps xs [x] (by simp)
      rw [h1, List.chain'_cons]
      constructor
      · have hcx : c.headD 0 = x := by
          rw [List.headD_eq_head?, h2]; rfl
        rw [hcx]
        exact hcond
      · rw [← h1]
        exact ih [x] (by simp)

/-- C1: the clusterer sorts ascending and then chain-merges greedily:
the produced clusters partition the sorted values; inside a cluster
each value passed the test `|x - last| / last ≤ eps` against the last
value added before it; a new cluster starts exactly when that test
fails; and on `[100, 100.5, 101.2]` eps 0.008 gives one cluster with
median 100.5 and count 3 while eps 0.003 gives three singletons. -/
theorem cluster_levels_chain_merge (values : List ℚ) (eps : ℚ)
    (v : ℚ) (vs : List ℚ)
    (h : List.insertionSort (· ≤ ·) values = v :: vs) :
    cluster_levels values eps
      = List.insertionSort countGE
          ((clusterRec eps [v] vs).map fun g => (median g, g.length))
    ∧ (clusterRec eps [v] vs).flatten = v :: vs
    ∧ (∀ c ∈ clusterRec eps [v] vs,
        c ≠ [] ∧ c.Chain' (fun a b => |b - a| / a ≤ eps))
    ∧ (clusterRec eps [v] vs).Chain'
        (fun c c' => ¬(|c'.headD 0 - c.getLastD 0| / c.getLastD 0 ≤ eps))
    ∧ cluster_levels [100, 201/2, 506/5] (8/1000) = [(201/2, 3)]
    ∧ cluster_levels [100, 201/2, 506/5] (3/1000)
        = [(100, 1), (201/2, 1), (506/5, 1)] := by
  refine ⟨?_, ?_, ?_, ?_, ?_, ?_⟩
  · simp [cluster_levels, h, clustersOfSorted]
  · rw [clusterRec_flatten]; rfl
  · intro c hc
    exact ⟨clusterRec_ne_nil eps vs [v] (by simp) c hc,
      clusterRec_chain eps vs [v] (by simp)
        (List.chain'_singleton v) c hc⟩
  · exact clusterRec_boundary eps vs [v] (by simp)
  · norm_num [cluster_levels, clustersOfSorted, clusterRec, median, countGE,
      List.insertionSort, List.orderedInsert, abs_of_nonneg]
  · norm_num [cluster_levels, clustersOfSorted, clusterRec, median, countGE,
      List.insertionSort, List.orderedInsert, abs_of_nonneg]

/-- C1 witness: the chain-merge characterisation at the concrete input
`[100.5, 100, 101.2]` with eps 0.008. -/
theorem cluster_levels_chain_merge_witness :
    (clusterRec (8/1000) [100] [201/2, 506/5]).flatten
      = 100 :: [201/2, 506/5] :=
  (cluster_levels_chain_merge [201/2, 100, 506/5] (8/1000) 100
    [201/2, 506/5]
    (by norm_num [List.insertionSort, List.orderedInsert])).2.1

/-- In a sorted list every element is at least the head. -/
theorem sorted_head_le (l : List ℚ) (hs : l.Pairwise (· ≤ ·)) :
    ∀ v ∈ l, l.headD 0 ≤ v := by
  cases l with
  | nil => intro v hv; cases hv
  | cons a t =>
    intro v hv
    rcases List.mem_cons.mp hv with rfl | hv
    · simp
    · simp only [List.headD_cons]
      exact List.rel_of_sorted_cons hs v hv

/-- In a sorted list every element is at most the last. -/
theorem sorted_le_getLast (l : List ℚ) (hs : l.Pairwise (· ≤ ·)) :
    ∀ v ∈ l, v ≤ l.getLastD 0 := by
  induction l with
  | nil => intro v hv; cases hv
  | cons a t ih =>
    intro v hv
    cases t with
    | nil =>
      simp only [List.mem_singleton] at hv
      simp [hv]
    | cons b t' =>
      have hne : (b :: t' : List ℚ) ≠ [] := by simp
      have hlast : (a :: b :: t').getLastD 0 = (b :: t').getLastD 0 := by
        simp [List.getLastD_eq_getLast?]
      have hg : (b :: t').getLastD 0 ∈ b :: t' := by
        rw [List.getLastD_eq_getLast?, List.getLast?_eq_getLast _ hne]
        simp [List.getLast_mem hne]
      rcases List.mem_cons.mp hv with rfl | hv
      · rw [hlast]
        exact List.rel_of_sorted_cons hs _ hg
      · rw [hlast]
        exact ih (List.Pairwise.of_cons hs) v hv

/-- An in-range `getD` is a member. -/
theorem getD_mem_of_lt (l : List ℚ) (i : ℕ) (h : i < l.length) :
    l.getD i 0 ∈ l := by
  rw [List.getD_eq_getElem?_getD, List.getElem?_eq_getElem h]
  exact List.getElem_mem h

/-- The median of a sorted nonempty list lies between its first and
last element. -/
theorem median_bounds (l : List ℚ) (hne : l ≠ [])
    (hs : l.Pairwise (· ≤ ·)) :
    l.headD 0 ≤ median l ∧ median l ≤ l.getLastD 0 := by
  have hsort : List.insertionSort (· ≤ ·) l = l :=
    List.Sorted.insertionSort_eq hs
  have hn : 0 < l.length := List.length_pos.mpr hne
  simp only [median, hsort]
  by_cases hpar : l.length % 2 = 1
  · rw [if_pos hpar]
    have hlt : l.length / 2 < l.length := by omega
    exact ⟨sorted_head_le l hs _ (getD_mem_of_lt l _ hlt),
           sorted_le_getLast l hs _ (getD_mem_of_lt l _ hlt)⟩
  · rw [if_neg hpar]
    have hlt1 : l.length / 2 - 1 < l.length := by omega
    have hlt2 : l.length / 2 < l.length := by omega
    have b1 := sorted_head_le l hs _ (getD_mem_of_lt l _ hlt1)
    have b2 := sorted_head_le l hs _ (getD_mem_of_lt l _ hlt2)
    have c1 := sorted_le_getLast l hs _ (getD_mem_of_lt l _ hlt1)
    have c2 := sorted_le_getLast l hs _ (getD_mem_of_lt l _ hlt2)
    constructor <;> linarith

/-- The median of a sorted nonempty list of positive values is
positive. -/
theorem median_pos (l : List ℚ) (hne : l ≠ []) (hs : l.Pairwise (· ≤ ·))
    (hp : ∀ v ∈ l, 0 < v) : 0 < median l := by
  have hh : l.headD 0 ∈ l := by
    cases l with
    | nil => exact absurd rfl hne
    | cons a t => simp
  exact lt_of_lt_of_le (hp _ hh) (median_bounds l hne hs).1

/-- A chain may be weakened using facts about its members. -/
theorem chain'_imp_mem {α : Type} {R S : α → α → Prop} :
    ∀ l : List α, (∀ a ∈ l, ∀ b ∈ l, R a b → S a b) →
      l.Chain' R → l.Chain' S
  | [], _, _ => trivial
  | [x], _, _ => List.chain'_singleton x
  | a :: b :: t, h, hch => by
    rw [List.chain'_cons] at hch ⊢
    refine ⟨h a (by simp) b (by simp) hch.1, ?_⟩
    exact chain'_imp_mem (b :: t)
      (fun x hx y hy => h x (List.mem_cons_of_mem a hx)
        y (List.mem_cons_of_mem a hy)) hch.2

/-- Two distinct members of a list occur in one of the two orders. -/
theorem pair_sublist_of_mem {α : Type} {l : List α} {a b : α}
    (ha : a ∈ l) (hb : b ∈ l) (hne : a ≠ b) :
    [a, b] <+ l ∨ [b, a] <+ l := by
  induction l with
  | nil => cases ha
  | cons c t ih =>
    rcases List.mem_cons.mp ha with rfl | ha'
    · have hb' : b ∈ t := by
        rcases List.mem_cons.mp hb with rfl | h
        · exact absurd rfl hne
        · exact h
      exact Or.inl (List.Sublist.cons₂ a (List.singleton_sublist.mpr hb'))
    · rcases List.mem_cons.mp hb with rfl | hb'
      · exact Or.inr (List.Sublist.cons₂ b (List.singleton_sublist.mpr ha'))
      · rcases ih ha' hb' with h | h
        · exact Or.inl (h.cons c)
        · exact Or.inr (h.cons c)

/-- In a duplicate-free list the two orders of a pair cannot both
occur. -/
theorem sublist_pair_asymm {α : Type} : ∀ {l : List α}, l.Nodup →
    ∀ {a b : α}, [a, b] <+ l → [b, a] <+ l → a = b := by
  intro l
  induction l with
  | nil => intro _ a b hab; cases hab
  | cons c t ih =>
    intro hnd a b hab hba
    rw [List.nodup_cons] at hnd
    cases hab with
    | cons _ h1 =>
      cases hba with
      | cons _ h2 => exact ih hnd.2 h1 h2
      | cons₂ _ h2 => exact absurd (h1.subset (by simp)) hnd.1
    | cons₂ _ h1 =>
      cases hba with
      | cons _ h2 => exact absurd (h2.subset (by simp)) hnd.1
      | cons₂ _ h2 => rfl

/-- Every cluster is a sorted, positive sublist of the processed
values. -/
theorem clusterRec_members (eps : ℚ) (xs cur : List ℚ) (hcur : cur ≠ [])
    (hsort : (cur ++ xs).Pairwise (· ≤ ·))
    (hpos : ∀ v ∈ cur ++ xs, 0 < v) :
    ∀ c ∈ clusterRec eps cur xs,
      c ≠ [] ∧ c.Pairwise (· ≤ ·) ∧ ∀ v ∈ c, 0 < v := by
  intro c hc
  have hsub : c <+ cur ++ xs := by
    rw [← clusterRec_flatten eps xs cur]
    exact List.sublist_flatten_of_mem hc
  exact ⟨clusterRec_ne_nil eps xs cur hcur c hc, hsort.sublist hsub,
    fun v hv => hpos v (hsub.subset hv)⟩

/-- With sorted positive input and positive eps, adjacent clusters are
strictly separated: the head of the next cluster exceeds the last value
of the previous one by more than the relative tolerance. -/
theorem clusterRec_strict (eps : ℚ) (xs : List ℚ) :
    ∀ cur : List ℚ, cur ≠ [] → (cur ++ xs).Pairwise (· ≤ ·) →
    (∀ v ∈ cur ++ xs, 0 < v) →
    (clusterRec eps cur xs).Chain'
      (fun c c' => c.getLastD 0 * (1 + eps) < c'.headD 0) := by
  induction xs with
  | nil => intro cur _ _ _; simp [clusterRec]
  | cons x xs ih =>
    intro cur hcur hsort hpos
    have hrefmem : cur.getLastD 0 ∈ cur := by
      rw [List.getLastD_eq_getLast?, List.getLast?_eq_getLast _ hcur]
      simp [List.getLast_mem hcur]
    have hrefpos : 0 < cur.getLastD 0 :=
      hpos _ (List.mem_append_left _ hrefmem)
    have hrefle : cur.getLastD 0 ≤ x :=
      (List.pairwise_append.mp hsort).2.2 _ hrefmem x (by simp)
    simp only [clusterRec]
    split
    · refine ih (cur ++ [x]) (by simp) ?_ ?_
      · rw [List.append_assoc]
        simpa using hsort
      · intro v hv
        refine hpos v ?_
        rw [List.append_assoc] at hv
        simpa using hv
    · rename_i hcond
      obtain ⟨c, cs, h1, h2⟩ := clusterRec_head eps xs [x] (by simp)
      rw [h1, List.chain'_cons]
      constructor
      · have hcx : c.headD 0 = x := by
          rw [List.headD_eq_head?, h2]; rfl
        rw [hcx]
        have habs : |x - cur.getLastD 0| = x - cur.getLastD 0 :=
          abs_of_nonneg (by linarith)
        rw [habs] at hcond
        have hgt : eps < (x - cur.getLastD 0) / cur.getLastD 0 :=
          lt_of_not_ge hcond
        have := (lt_div_iff₀ hrefpos).mp hgt
        nlinarith
      · rw [← h1]
        refine ih [x] (by simp) ?_ ?_
        · have hx : (x :: xs).Pairwise (· ≤ ·) :=
            (List.pairwise_append.mp hsort).2.1
          simpa using hx
        · intro v hv
          refine hpos v (List.mem_append_right _ ?_)
          simpa using hv

/-- With sorted positive input and positive eps, the cluster medians
are positive and consecutive medians are separated by more than the
relative tolerance. -/
theorem cluster_medians_chain (eps : ℚ) (heps : 0 < eps)
    (v : ℚ) (vs : List ℚ)
    (hsort : (v :: vs).Pairwise (· ≤ ·)) (hpos : ∀ w ∈ v :: vs, 0 < w) :
    ((clusterRec eps [v] vs).map median).Chain'
        (fun m m' => m * (1 + eps) < m')
    ∧ (∀ m ∈ (clusterRec eps [v] vs).map median, 0 < m) := by
  have hcur : ([v] : List ℚ) ≠ [] := by simp
  have hs' : (([v] : List ℚ) ++ vs).Pairwise (· ≤ ·) := by simpa using hsort
  have hp' : ∀ w ∈ ([v] : List ℚ) ++ vs, 0 < w := by simpa using hpos
  have hmem := clusterRec_members eps vs [v] hcur hs' hp'
  have hstrict := clusterRec_strict eps vs [v] hcur hs' hp'
  constructor
  · rw [List.chain'_map]
    refine chain'_imp_mem _ ?_ hstrict
    intro c hc c' hc' hlt
    obtain ⟨hne, hcs, hcp⟩ := hmem c hc
    obtain ⟨hne', hcs', hcp'⟩ := hmem c' hc'
    have b1 := (median_bounds c hne hcs).2
    have b2 := (median_bounds c' hne' hcs').1
    have hm_pos := median_pos c hne hcs hcp
    have h1eps : (0:ℚ) < 1 + eps := by linarith
    nlinarith [mul_le_mul_of_nonneg_right b1 (le_of_lt h1eps)]
  · intro m hm
    rw [List.mem_map] at hm
    obtain ⟨c, hc, rfl⟩ := hm
    obtain ⟨hne, hcs, hcp⟩ := hmem c hc
    exact median_pos c hne hcs hcp

/-- Re-clustering a list whose consecutive values all exceed the
relative tolerance (with positive anchors) yields only singletons. -/
theorem clusterRec_singletons (eps : ℚ) (heps : 0 < eps) :
    ∀ (xs : List ℚ) (m : ℚ), 0 < m →
    List.Chain (fun a b => a * (1 + eps) < b) m xs →
    (∀ x ∈ xs, 0 < x) →
    clusterRec eps [m] xs = [m] :: xs.map (fun x => [x]) := by
  intro xs
  induction xs with
  | nil => intro m _ _ _; simp [clusterRec]
  | cons x xs ih =>
    intro m hm hch hxs
    rw [List.chain_cons] at hch
    have hx : 0 < x := hxs x (by simp)
    have hgl : List.getLastD [m] 0 = m := rfl
    have hneg : ¬(|x - List.getLastD [m] 0| / List.getLastD [m] 0 ≤ eps) := by
      rw [hgl]
      have hlt : m < x := by nlinarith [hch.1]
      rw [abs_of_nonneg (by linarith)]
      intro hle
      rw [div_le_iff₀ hm] at hle
      nlinarith [hch.1]
    simp only [clusterRec]
    rw [if_neg hneg]
    congr 1
    exact ih x hx hch.2 (fun y hy => hxs y (List.mem_cons_of_mem x hy))

/-- C7: clustering is idempotent on its own representatives — for
positive values and eps in (0,1), re-clustering the list of produced
medians with the same eps yields only singleton clusters. -/
theorem cluster_levels_idempotent (values : List ℚ) (eps : ℚ)
    (hpos : ∀ v ∈ values, 0 < v) (h0 : 0 < eps) (h1 : eps < 1) :
    ∀ c ∈ cluster_levels ((cluster_levels values eps).map Prod.fst) eps,
      c.2 = 1 := by
  intro c hc
  cases hs : List.insertionSort (· ≤ ·) values with
  | nil =>
    have hempty : cluster_levels values eps = [] := by
      simp [cluster_levels, hs, clustersOfSorted]
    rw [hempty] at hc
    simp [cluster_levels, clustersOfSorted, List.insertionSort] at hc
  | cons v vs =>
    have hsort : (v :: vs).Pairwise (· ≤ ·) := by
      have h := List.sorted_insertionSort (· ≤ ·) values
      rw [hs] at h
      exact h
    have hposs : ∀ w ∈ v :: vs, 0 < w := by
      intro w hw
      apply hpos
      have hw' : w ∈ List.insertionSort (· ≤ ·) values := by
        rw [hs]; exact hw
      exact (List.mem_insertionSort _).mp hw'
    obtain ⟨hchain, hmpos⟩ := cluster_medians_chain eps h0 v vs hsort hposs
    have hlt : ((clusterRec eps [v] vs).map median).Chain' (· < ·) := by
      refine chain'_imp_mem _ ?_ hchain
      intro a ha b hb h
      have := hmpos a ha
      nlinarith
    have hpairlt : ((clusterRec eps [v] vs).map median).Pairwise (· < ·) :=
      List.chain'_iff_pairwise.mp hlt
    have hpairle : ((clusterRec eps [v] vs).map median).Pairwise (· ≤ ·) :=
      hpairlt.imp le_of_lt
    have hlvl : cluster_levels values eps
        = List.insertionSort countGE
            ((clusterRec eps [v] vs).map fun g => (median g, g.length)) := by
      simp [cluster_levels, hs, clustersOfSorted]
    have hperm : (cluster_levels values eps).map Prod.fst
        ~ (clusterRec eps [v] vs).map median := by
      rw [hlvl]
      have hp := (List.perm_insertionSort countGE
        ((clusterRec eps [v] vs).map fun g => (median g, g.length))).map
          Prod.fst
      rw [List.map_map] at hp
      exact hp
    have hsr : List.insertionSort (· ≤ ·)
        ((cluster_levels values eps).map Prod.fst)
        = (clusterRec eps [v] vs).map median := by
      refine List.eq_of_perm_of_sorted
        ((List.perm_insertionSort _ _).trans hperm)
        (List.sorted_insertionSort _ _) hpairle
    rw [cluster_levels] at hc
    rw [hsr] at hc
    obtain ⟨c0, cs0, hc0, -⟩ := clusterRec_head eps vs [v] (by simp)
    rw [hc0, List.map_cons] at hc
    have hm0 : 0 < median c0 := by
      refine hmpos _ ?_
      rw [hc0, List.map_cons]
      simp
    have hch0 : List.Chain (fun a b => a * (1 + eps) < b)
        (median c0) (cs0.map median) := by
      have := hchain
      rw [hc0, List.map_cons] at this
      exact this
    have hpos0 : ∀ x ∈ cs0.map median, 0 < x := by
      intro x hx
      refine hmpos x ?_
      rw [hc0, List.map_cons]
      exact List.mem_cons_of_mem _ hx
    rw [clustersOfSorted, clusterRec_singletons eps h0 (cs0.map median)
      (median c0) hm0 hch0 hpos0] at hc
    rw [List.mem_insertionSort] at hc
    rcases List.mem_cons.mp hc with rfl | hc'
    · rfl
    · rw [List.map_map, List.mem_map] at hc'
      obtain ⟨x, -, rfl⟩ := hc'
      rfl

/-- C7 witness: re-clustering the representatives of
`[100, 100.5, 101.2]` at eps 0.008 yields the singleton cluster
`(100.5, 1)`, whose support the theorem instance confirms is 1. -/
theorem cluster_levels_idempotent_witness :
    ((201/2 : ℚ), 1).2 = 1 :=
  cluster_levels_idempotent [100, 201/2, 506/5] (8/1000)
    (by norm_num) (by norm_num) (by norm_num) ((201/2 : ℚ), 1)
    (by norm_num [cluster_levels, clustersOfSorted, clusterRec, median,
      countGE, List.insertionSort, List.orderedInsert, abs_of_nonneg])

/-- C10: for positive values, clusters tying on support appear in the
count-descending ranking in ascending order of representative (the
medians are produced strictly increasing and the sort is stable), so
among clusters tying for the head's support the head has the smallest
representative; and the resolver's best-min selection is exactly the
head of the ranked cluster list of the lows. -/
theorem cluster_levels_tie_order (values : List ℚ) (eps : ℚ)
    (hpos : ∀ v ∈ values, 0 < v) (heps : 0 < eps) :
    (cluster_levels values eps).Pairwise
        (fun a b => a.2 = b.2 → a.1 < b.1)
    ∧ (∀ c ∈ cluster_levels values eps,
        c.2 = ((cluster_levels values eps).headD (0, 0)).2 →
        ((cluster_levels values eps).headD (0, 0)).1 ≤ c.1)
    ∧ (∀ kl : List Candle,
        (find_peak_levels kl eps).1
          = match cluster_levels (local_extrema kl).1 eps with
            | [] => (none, 0)
            | c :: _ => (some c.1, c.2)) := by
  have key : (cluster_levels values eps).Pairwise
      (fun a b => a.2 = b.2 → a.1 < b.1) := by
    cases hs : List.insertionSort (· ≤ ·) values with
    | nil =>
      have hempty : cluster_levels values eps = [] := by
        simp [cluster_levels, hs, clustersOfSorted]
      rw [hempty]
      exact List.Pairwise.nil
    | cons v vs =>
      have hsort : (v :: vs).Pairwise (· ≤ ·) := by
        have h := List.sorted_insertionSort (· ≤ ·) values
        rw [hs] at h
        exact h
      have hposs : ∀ w ∈ v :: vs, 0 < w := by
        intro w hw
        apply hpos
        have hw' : w ∈ List.insertionSort (· ≤ ·) values := by
          rw [hs]; exact hw
        exact (List.mem_insertionSort _).mp hw'
      obtain ⟨hchain, hmpos⟩ := cluster_medians_chain eps heps v vs hsort hposs
      have hlt : ((clusterRec eps [v] vs).map median).Chain' (· < ·) := by
        refine chain'_imp_mem _ ?_ hchain
        intro a ha b hb h
        have := hmpos a ha
        nlinarith
      have hpairlt_ms : ((clusterRec eps [v] vs).map median).Pairwise
          (· < ·) := List.chain'_iff_pairwise.mp hlt
      have hpairlt : ((clusterRec eps [v] vs).map
          fun g => (median g, g.length)).Pairwise
            (fun a b => a.1 < b.1) := by
        rw [List.pairwise_map]
        rw [List.pairwise_map] at hpairlt_ms
        exact hpairlt_ms
      have hnd' : ((clusterRec eps [v] vs).map
          fun g => (median g, g.length)).Nodup := by
        refine hpairlt.imp ?_
        intro a b hab he
        rw [he] at hab
        exact lt_irrefl _ hab
      have hlvl : cluster_levels values eps
          = List.insertionSort countGE
              ((clusterRec eps [v] vs).map fun g => (median g, g.length)) := by
        simp [cluster_levels, hs, clustersOfSorted]
      have hperm : cluster_levels values eps
          ~ (clusterRec eps [v] vs).map fun g => (median g, g.length) := by
        rw [hlvl]
        exact List.perm_insertionSort countGE _
      have hnd : (cluster_levels values eps).Nodup := hperm.nodup_iff.mpr hnd'
      rw [List.pairwise_iff_forall_sublist]
      intro a b hab hcnt
      have hane : a ≠ b := by
        intro he
        rw [he] at hab
        exact (List.nodup_iff_sublist.mp hnd b) hab
      have ha' : a ∈ (clusterRec eps [v] vs).map
          fun g => (median g, g.length) :=
        hperm.subset (hab.subset (by simp))
      have hb' : b ∈ (clusterRec eps [v] vs).map
          fun g => (median g, g.length) :=
        hperm.subset (hab.subset (by simp))
      rcases pair_sublist_of_mem ha' hb' hane with h | h
      · exact List.pairwise_iff_forall_sublist.mp hpairlt h
      · exfalso
        have hcge : List.Pairwise countGE [b, a] :=
          List.pairwise_pair.mpr (le_of_eq hcnt)
        have hba : [b, a] <+ cluster_levels values eps := by
          rw [hlvl]
          exact List.sublist_insertionSort hcge h
        exact hane (sublist_pair_asymm hnd hab hba)
  refine ⟨key, ?_, fun kl => rfl⟩
  cases hres : cluster_levels values eps with
  | nil => intro c hc; exact absurd hc (List.not_mem_nil c)
  | cons r t =>
    intro c hc hcnt
    rw [hres] at key
    simp only [List.headD_cons] at hcnt ⊢
    rcases List.mem_cons.mp hc with rfl | hc'
    · exact le_refl _
    · exact le_of_lt ((List.pairwise_cons.mp key).1 c hc' hcnt.symm)

/-- C10 witness: the tie-ordering at the concrete input
`[10, 10.05, 20, 20.02]` (two clusters of support 2). -/
theorem cluster_levels_tie_order_witness :
    (cluster_levels [10, 1005/100, 20, 2002/100] (8/1000)).Pairwise
      (fun a b => a.2 = b.2 → a.1 < b.1) :=
  (cluster_levels_tie_order [10, 1005/100, 20, 2002/100] (8/1000)
    (by norm_num) (by norm_num)).1
